import Mathlib

/-!
Verification development for the Zora build tool.

Shallow embedding of the profile/feature resolution engine and the CMake
synthesizer (`src/config.rs`, `src/commands/build.rs`) and of the manifest
mutator (`src/commands/add.rs`, `src/commands/remove.rs`).

Modelling conventions:
* Rust `HashMap<String, V>` content is modelled as an association list
  `List (String × V)` whose keys are unique; `hmInsert`/`hmExtend` mirror
  `HashMap::insert` / `Extend::extend` at the level of map content.
* The iteration order of a `HashMap` is unspecified; wherever the source
  iterates one (`config.deps.keys()` in `build.rs`), the embedding takes the
  iteration order as an explicit parameter constrained to be a permutation
  of the keys.
* Tera serializes context values through `serde_json`, whose map type keeps
  keys sorted (BTreeMap, `preserve_order` off), so the `defines` map reaches
  the template in sorted key order; the embedding normalizes that field with
  `sortByKey` at the directive-set boundary.
* Rust machine strings are Lean `String`s; character-level operations of the
  mutator are carried out on `List Char` via `String.data`.
-/

namespace Zora

/-- `config.rs`: `ProfileConfig` (opt level, debug, lto, strip, flags, defines). -/
structure ProfileConfig where
  opt_level : String
  debug : Bool
  lto : Bool
  strip : Bool
  flags : List String
  defines : List (String × String)
deriving DecidableEq

/-- `config.rs`: `ProfilesConfig` with built-in `dev`/`release` and a custom map. -/
structure ProfilesConfig where
  dev : ProfileConfig
  release : ProfileConfig
  custom : List (String × ProfileConfig)
deriving DecidableEq

/-- `config.rs`: `DependencySpec`, a bare version or a detailed record. -/
inductive DependencySpec where
  | Simple (version : String)
  | Detailed (version : String) (features : List String) (optionalDep : Bool)
      (git branch tag : Option String)
deriving DecidableEq

/-- `config.rs`: `BuildConfig` (the fields read by the resolver). -/
structure BuildConfig where
  flags : List String
  defines : List (String × String)
  libs : List String
  lib_dirs : List String
deriving DecidableEq

/-- `config.rs`: `SourceConfig`. -/
structure SourceConfig where
  dirs : List String
deriving DecidableEq

/-- `config.rs`: `IncludeConfig`. -/
structure IncludeConfig where
  dirs : List String
deriving DecidableEq

/-- `config.rs`: `ProjectConfig` — the project descriptor, restricted to the
fields consumed by the resolver/synthesizer path. -/
structure ProjectConfig where
  name : String
  version : String
  type : String
  language : String
  std : String
  sources : SourceConfig
  includes : IncludeConfig
  deps : List (String × DependencySpec)
  build : BuildConfig
  profile : ProfilesConfig
  features : List (String × List String)
  default_features : List String
deriving DecidableEq

/-- `config.rs`: `default_dev_profile()`. -/
def default_dev_profile : ProfileConfig :=
  { opt_level := "0", debug := true, lto := false, strip := false
    flags := ["-Wall", "-Wextra"], defines := [] }

/-- `config.rs`: `default_release_profile()`. -/
def default_release_profile : ProfileConfig :=
  { opt_level := "3", debug := false, lto := true, strip := true
    flags := ["-Wall", "-Wextra", "-DNDEBUG"], defines := [] }

/-- `config.rs`: `ProjectConfig::is_library`. -/
def ProjectConfig.is_library (c : ProjectConfig) : Bool :=
  c.type == "lib" || c.type == "library"

/-- `config.rs`: `ProjectConfig::is_cpp`. -/
def ProjectConfig.is_cpp (c : ProjectConfig) : Bool :=
  c.language == "cpp" || c.language == "c++"

/-- `config.rs` lines 227-234: `ProjectConfig::get_profile`. The Rust `match`
tries the arms in order: `"dev" | "debug"`, then `"release"`, then a custom
lookup falling back to the dev profile. -/
def ProjectConfig.get_profile (c : ProjectConfig) (mode : String) : ProfileConfig :=
  if mode = "dev" then c.profile.dev
  else if mode = "debug" then c.profile.dev
  else if mode = "release" then c.profile.release
  else ((List.lookup mode c.profile.custom).getD c.profile.dev)

/-- `build.rs` lines 139-149: the enabled-feature set (a `HashSet<String>`),
given as the list of elements inserted into it; membership in this list is
membership in the set. -/
def enabledFeatures (c : ProjectConfig) (features : List String)
    (all_features no_default_features : Bool) : List String :=
  (if no_default_features then [] else c.default_features) ++
    (if all_features then c.features.map Prod.fst else features)

/-- `build.rs` line 190: the key of a feature-derived define:
`"FEATURE_" + feature.to_uppercase().replace("-", "_")`. -/
def featureDefine (f : String) : String :=
  String.mk ("FEATURE_".data ++
    (f.data.map Char.toUpper).map (fun c => if c = '-' then '_' else c))

/-- `HashMap::get` on association-list map content. -/
def alookup (k : String) : List (String × String) → Option String
  | [] => none
  | p :: ps => if p.1 = k then some p.2 else alookup k ps

/-- `HashMap::insert` on association-list map content: replace the value at an
existing key, otherwise add the binding. -/
def hmInsert (m : List (String × String)) (k v : String) : List (String × String) :=
  if (alookup k m).isSome then
    m.map (fun p => if p.1 = k then (k, v) else p)
  else m ++ [(k, v)]

/-- `HashMap::extend`: insert every binding of `n` into `m`, left to right. -/
def hmExtend (m n : List (String × String)) : List (String × String) :=
  n.foldl (fun acc p => hmInsert acc p.1 p.2) m

/-- `build.rs` lines 184-193: `all_defines` — profile defines overlaid by
build defines, then by one `FEATURE_* = "1"` entry per enabled feature.
The feature fold follows the given enumeration of the feature set; since
every inserted value is `"1"`, the resulting map content does not depend on
that order. -/
def resolvedDefines (c : ProjectConfig) (prof : ProfileConfig)
    (enabled : List String) : List (String × String) :=
  enabled.foldl (fun m f => hmInsert m (featureDefine f) "1")
    (hmExtend prof.defines c.build.defines)

/-- Lexicographic codepoint order on character lists; agrees with Rust's
byte-lexicographic `Ord` on UTF-8 strings. `true` on equal lists. -/
def charListLe : List Char → List Char → Bool
  | [], _ => true
  | _ :: _, [] => false
  | a :: as, b :: bs =>
      if a.toNat < b.toNat then true
      else if b.toNat < a.toNat then false
      else charListLe as bs

/-- String order used for sorted emission. -/
def strLe (a b : String) : Bool := charListLe a.data b.data

/-- Insertion into a key-sorted association list. -/
def insertSortedPair (p : String × String) :
    List (String × String) → List (String × String)
  | [] => [p]
  | q :: qs => if strLe p.1 q.1 then p :: q :: qs else q :: insertSortedPair p qs

/-- Key-sorted normal form of a map, as produced by `serde_json`'s BTreeMap
serialization of a `HashMap` context value. -/
def sortByKey (m : List (String × String)) : List (String × String) :=
  m.foldr insertSortedPair []

/-- Insertion into a sorted list of strings. -/
def insertSortedStr (s : String) : List String → List String
  | [] => [s]
  | t :: ts => if strLe s t then s :: t :: ts else t :: insertSortedStr s ts

/-- Sorted order of a list of strings (the order the spec requires for the
toolchain-package list). -/
def sortStrings (l : List String) : List String :=
  l.foldr insertSortedStr []

/-- The Build Directive Set: the Tera context assembled by `build.rs`
lines 157-209. Fields that the source inserts only conditionally are
`Option`s (`none` = key absent from the context). -/
structure DirectiveSet where
  name : String
  language : String
  source_dirs : List String
  include_dirs : List String
  is_library : Bool
  use_vcpkg : Bool
  lto : Bool
  cpp_std : Option String
  c_std : Option String
  build_flags : Option (List String)
  defines : Option (List (String × String))
  link_libs : Option (List String)
  lib_dirs : Option (List String)
  vcpkg_packages : Option (List String)
deriving DecidableEq

/-- `build.rs` lines 126-209: the resolution path of `run` (profile lookup,
feature-set computation, flag/define merging, context assembly), with
`name_opt = None` so the project name is the descriptor's. `depsIter` is the
iteration order in which `config.deps.keys().cloned().collect()` enumerates
the dependency `HashMap`; the source imposes no order on it. -/
def resolve (c : ProjectConfig) (mode : String) (features : List String)
    (all_features no_default_features : Bool) (depsIter : List String) :
    DirectiveSet :=
  let profile := c.get_profile mode
  let enabled := enabledFeatures c features all_features no_default_features
  let all_flags := profile.flags ++ c.build.flags
  let all_defines := resolvedDefines c profile enabled
  { name := c.name
    language := if c.is_cpp then "CXX" else "C"
    source_dirs := c.sources.dirs
    include_dirs := c.includes.dirs
    is_library := c.is_library
    use_vcpkg := !c.deps.isEmpty
    lto := profile.lto
    cpp_std := if c.is_cpp && !c.std.isEmpty then some c.std else none
    c_std := if !c.is_cpp && !c.std.isEmpty then some c.std else none
    build_flags := if all_flags.isEmpty then none else some all_flags
    defines := if all_defines.isEmpty then none else some (sortByKey all_defines)
    link_libs := if c.build.libs.isEmpty then none else some c.build.libs
    lib_dirs := if c.build.lib_dirs.isEmpty then none else some c.build.lib_dirs
    vcpkg_packages := if c.deps.isEmpty then none else some depsIter }

/-- `build.rs` lines 37-110 (`PROJECT_CMAKE_TEMPLATE`) rendered by
`Tera::one_off` (lines 213-214): the text outside `{% %}` tags is emitted
verbatim; an `{% if %}`/`{% for %}` body (including the newlines that
surround the tags' own lines) is emitted only when the condition holds /
once per element. `{% for key, value in defines %}` walks the serialized
map in sorted key order. -/
def synthesize (d : DirectiveSet) : String :=
  "\ncmake_minimum_required(VERSION 3.10)\nproject(" ++ d.name ++ " " ++
    d.language ++ ")\n\n" ++
  (if d.use_vcpkg then
    "\nset(CMAKE_TOOLCHAIN_FILE \"$ENV{VCPKG_ROOT}/scripts/buildsystems/vcpkg.cmake\" CACHE STRING \"Vcpkg toolchain file\")\n"
   else "") ++
  "\n\n" ++
  (match d.cpp_std with
   | some s => "\nset(CMAKE_CXX_STANDARD " ++ s ++ ")\nset(CMAKE_CXX_STANDARD_REQUIRED ON)\n"
   | none => "") ++
  "\n\n" ++
  (match d.c_std with
   | some s => "\nset(CMAKE_C_STANDARD " ++ s ++ ")\nset(CMAKE_C_STANDARD_REQUIRED ON)\n"
   | none => "") ++
  "\n\nfile(GLOB_RECURSE SOURCES \n" ++
  String.join (d.source_dirs.map (fun dir =>
    "\n    \"${PROJECT_SOURCE_DIR}/../../" ++ dir ++ "/*.c\"\n    \"${PROJECT_SOURCE_DIR}/../../" ++ dir ++ "/*.cpp\"\n")) ++
  "\n)\n\n" ++
  (if d.is_library then "\nadd_library(" ++ d.name ++ " ${SOURCES})\n"
   else "\nadd_executable(" ++ d.name ++ " ${SOURCES})\n") ++
  "\n\n" ++
  String.join (d.include_dirs.map (fun dir =>
    "\ntarget_include_directories(" ++ d.name ++ " PRIVATE \"${PROJECT_SOURCE_DIR}/../../" ++ dir ++ "\")\n")) ++
  "\n\n" ++
  (match d.vcpkg_packages with
   | some pkgs =>
      "\n" ++ String.join (pkgs.map (fun p =>
        "\nfind_package(" ++ p ++ " REQUIRED)\ntarget_link_libraries(" ++
          d.name ++ " PRIVATE " ++ p ++ "::" ++ p ++ ")\n")) ++ "\n"
   | none => "") ++
  "\n\n" ++
  (match d.build_flags with
   | some flags =>
      "\ntarget_compile_options(" ++ d.name ++ " PRIVATE \n" ++
        String.join (flags.map (fun f => "\n    \"" ++ f ++ "\"\n")) ++ "\n)\n"
   | none => "") ++
  "\n\n" ++
  (match d.defines with
   | some defs =>
      "\n" ++ String.join (defs.map (fun kv =>
        "\ntarget_compile_definitions(" ++ d.name ++ " PRIVATE " ++ kv.1 ++
          "=" ++ kv.2 ++ ")\n")) ++ "\n"
   | none => "") ++
  "\n\n" ++
  (match d.link_libs with
   | some libs =>
      "\ntarget_link_libraries(" ++ d.name ++ " PRIVATE \n" ++
        String.join (libs.map (fun l => "\n    " ++ l ++ "\n")) ++ "\n)\n"
   | none => "") ++
  "\n\n" ++
  (match d.lib_dirs with
   | some dirs =>
      "\n" ++ String.join (dirs.map (fun dir =>
        "\ntarget_link_directories(" ++ d.name ++ " PRIVATE \"" ++ dir ++ "\")\n")) ++ "\n"
   | none => "") ++
  "\n\n" ++
  (if d.lto then
    "\nset_property(TARGET " ++ d.name ++ " PROPERTY INTERPROCEDURAL_OPTIMIZATION TRUE)\n"
   else "") ++
  "\n"

/-- Substring test at the character level: `pat` occurs in `s`. -/
def containsSub (pat : List Char) : List Char → Bool
  | [] => pat.isEmpty
  | c :: rest => pat.isPrefixOf (c :: rest) || containsSub pat rest

/-- Substring test on strings. -/
def strContains (s pat : String) : Bool := containsSub pat.data s.data

/-- The toolchain-package list the spec asks for, following the spec text
"Toolchain-package list = the dependency map's keys, order must be sorted":
the dependency keys in sorted order. -/
def specSortedPackages (c : ProjectConfig) : List String :=
  sortStrings (c.deps.map Prod.fst)

/-- A descriptor with two dependencies, used to exhibit the unsorted,
iteration-order-dependent toolchain-package list. -/
def twoDepsConfig : ProjectConfig :=
  { name := "demo", version := "0.1.0", type := "exec", language := "c"
    std := "", sources := ⟨["src"]⟩, includes := ⟨["include"]⟩
    deps := [("a", .Simple "*"), ("b", .Simple "*")]
    build := ⟨[], [], [], []⟩
    profile := ⟨default_dev_profile, default_release_profile, []⟩
    features := [], default_features := [] }

/-- The end-to-end descriptor of the spec's testable property: `type=lib`,
`language=cpp`, `std=17`, `sources.dirs=["src"]`, `deps={"fmt":"*"}`;
unspecified fields take the loader defaults of `config.rs`. -/
def endToEndConfig : ProjectConfig :=
  { name := "mylib", version := "0.1.0", type := "lib", language := "cpp"
    std := "17", sources := ⟨["src"]⟩, includes := ⟨["include"]⟩
    deps := [("fmt", .Simple "*")]
    build := ⟨[], [], [], []⟩
    profile := ⟨default_dev_profile, default_release_profile, []⟩
    features := [], default_features := [] }

/-- A descriptor whose dev profile and build settings both define
`FEATURE_X` and `K`, with default feature `x`; exercises every layer of the
define-precedence chain. -/
def precedenceConfig : ProjectConfig :=
  { name := "prec", version := "0.1.0", type := "exec", language := "c"
    std := "", sources := ⟨["src"]⟩, includes := ⟨[]⟩, deps := []
    build := ⟨[], [("FEATURE_X", "bfeat"), ("K", "bval")], [], []⟩
    profile := ⟨{ default_dev_profile with
                   defines := [("FEATURE_X", "pfeat"), ("K", "pval")] },
                default_release_profile, []⟩
    features := [], default_features := ["x"] }

/-- A distinctive custom profile. -/
def fastProfile : ProfileConfig :=
  { opt_level := "2", debug := false, lto := false, strip := false
    flags := ["-O2"], defines := [] }

/-- A descriptor with a custom profile named `fast`. -/
def customProfileConfig : ProjectConfig :=
  { name := "cust", version := "0.1.0", type := "exec", language := "c"
    std := "", sources := ⟨["src"]⟩, includes := ⟨[]⟩, deps := []
    build := ⟨[], [], [], []⟩
    profile := ⟨default_dev_profile, default_release_profile,
                [("fast", fastProfile)]⟩
    features := [], default_features := [] }

/-! ### Manifest mutator (`add.rs`, `remove.rs`)

The mutator works on the lines of the document text. Lines are `List Char`
(a Rust `&str` without its terminator); `rustLines` mirrors Rust's
`str::lines()` (split at `'\n'`, drop a final empty piece, strip the `'\r'`
of a `"\r\n"` terminator), and `joinNL` mirrors `lines.join("\n") + "\n"`. -/

/-- Split a character list at every `'\n'`; always returns one more piece
than there are newlines. -/
def splitNLChars : List Char → List (List Char)
  | [] => [[]]
  | c :: cs =>
    if c = '\n' then [] :: splitNLChars cs
    else
      match splitNLChars cs with
      | [] => [[c]]
      | p :: ps => (c :: p) :: ps

/-- Strip one trailing carriage return (the `'\r'` of a `"\r\n"` terminator). -/
def stripCR (l : List Char) : List Char :=
  if l.getLast? = some '\r' then l.dropLast else l

/-- Rust `str::lines()`: split at `'\n'`, strip the `'\r'` before each
consumed `'\n'`, and drop the final piece when it is empty (i.e. when the
text ends with a newline). -/
def rustLines (s : List Char) : List (List Char) :=
  let parts := splitNLChars s
  parts.dropLast.map stripCR ++
    (match parts.getLast? with
     | some [] => []
     | some p => [p]
     | none => [])

/-- Rust `str::trim()` (ASCII whitespace suffices for the characters the
mutator compares). -/
def trimChars (l : List Char) : List Char :=
  ((l.dropWhile Char.isWhitespace).reverse.dropWhile Char.isWhitespace).reverse

/-- The dependency-section header `"[deps]"`. -/
def headerLine : List Char := "[deps]".data

/-- `add.rs` line 84: a trimmed line that looks like a section header. -/
def isSectionHeader (t : List Char) : Bool :=
  (t.head? == some '[') && (t.getLast? == some ']')

/-- A trimmed line that is a comment. -/
def isComment (t : List Char) : Bool := t.head? == some '#'

/-- `add.rs` lines 82-93: length of the contiguous run of entry lines after
the header — advance while the trimmed line is non-empty, not a comment and
not a section header; stop at the first line that fails this. -/
def scanLen : List (List Char) → Nat
  | [] => 0
  | l :: rest =>
    let t := trimChars l
    if isSectionHeader t then 0
    else if !t.isEmpty && !isComment t then 1 + scanLen rest
    else 0

/-- `add.rs` lines 96-106: the trimmed non-empty non-comment lines of the
section run (the run already contains only such lines; the filter mirrors
the source). -/
def existingEntries (run : List (List Char)) : List (List Char) :=
  run.filterMap (fun l =>
    let t := trimChars l
    if !t.isEmpty && !isComment t then some t else none)

/-- `add.rs` line 110: the inserted entry line `{name} = "*"`. -/
def depLine (pkg : List Char) : List Char := pkg ++ " = \"*\"".data

/-- `Vec::insert` (index clamped to the end; the source never exceeds it). -/
def insertAt : Nat → List Char → List (List Char) → List (List Char)
  | 0, s, l => s :: l
  | _ + 1, s, [] => [s]
  | n + 1, s, x :: xs => x :: insertAt n s xs

/-- `add.rs` lines 109-117: for each requested package not prefix-matching
an existing entry, insert its entry line at the insertion point and advance
the point; otherwise skip it. `existing` is the snapshot computed before
the loop. -/
def addLoop (existing : List (List Char)) :
    List (List Char) → Nat → List (List Char) → List (List Char)
  | [], _, lines => lines
  | pkg :: rest, ii, lines =>
    if existing.any (fun d => pkg.isPrefixOf d) then
      addLoop existing rest ii lines
    else addLoop existing rest (ii + 1) (insertAt ii (depLine pkg) lines)

/-- `add.rs` lines 60-66: index of the first line whose trimmed text equals
the dependency-section header. -/
def depsIdx (lines : List (List Char)) : Option Nat :=
  lines.findIdx? (fun l => trimChars l == headerLine)

/-- The contiguous run of entry lines following the header at index `di`. -/
def sectionRun (lines : List (List Char)) (di : Nat) : List (List Char) :=
  (lines.drop (di + 1)).take (scanLen (lines.drop (di + 1)))

/-- `add.rs` lines 56-117 at the level of line lists: locate or append the
header, compute the insertion point and the existing entries, then run the
insertion loop. -/
def addLinesCore (lines0 : List (List Char)) (pkgs : List (List Char)) :
    List (List Char) :=
  match depsIdx lines0 with
  | some di =>
    addLoop (existingEntries (sectionRun lines0 di)) pkgs
      (di + 1 + scanLen (lines0.drop (di + 1))) lines0
  | none =>
    let lines1 := lines0 ++ [[], headerLine]
    let di := lines0.length + 1
    addLoop (existingEntries (sectionRun lines1 di)) pkgs
      (di + 1 + scanLen (lines1.drop (di + 1))) lines1

/-- `remove.rs` lines 41-48: keep the lines whose trimmed text starts with
none of the requested names. -/
def removeLinesCore (lines : List (List Char)) (pkgs : List (List Char)) :
    List (List Char) :=
  lines.filter (fun line => !(pkgs.any (fun pkg => pkg.isPrefixOf (trimChars line))))

/-- `lines.join("\n")` followed by `+ "\n"`: every line is emitted with a
terminating newline. -/
def joinSep (ls : List (List Char)) : List Char :=
  ls.foldr (fun l acc => l ++ '\n' :: acc) []

/-- `lines.join("\n") + "\n"` (for an empty line list this is just `"\n"`). -/
def joinNL (ls : List (List Char)) : List Char :=
  if ls.isEmpty then ['\n'] else joinSep ls

/-- `add.rs`: `add_dependencies_to_toml` (the `Ok` payload). -/
def add_dependencies_to_toml (doc : String) (packages : List String) : String :=
  String.mk (joinNL (addLinesCore (rustLines doc.data) (packages.map String.data)))

/-- `remove.rs`: `remove_dependencies_from_toml` (the `Ok` payload). -/
def remove_dependencies_from_toml (doc : String) (packages : List String) : String :=
  String.mk (joinNL (removeLinesCore (rustLines doc.data) (packages.map String.data)))

/-- The dependency-section entry lines of a line list: the trimmed entries
of the run following the header, empty when there is no header. -/
def entriesOfLines (lines : List (List Char)) : List (List Char) :=
  match depsIdx lines with
  | none => []
  | some di => existingEntries (sectionRun lines di)

/-- The dependency-section entry lines of a document text. -/
def entriesOf (doc : String) : List (List Char) :=
  entriesOfLines (rustLines doc.data)

/-- The last character is a newline. -/
def endsWithNewline (s : String) : Bool := s.data.getLast? == some '\n'

/-- The string `s` ends with `suffix`. -/
def strEndsWith (s suffix : String) : Bool := List.isSuffixOf suffix.data s.data

/-- Exactly one trailing newline: the last character is a newline and the
character before it, when there is one, is not. -/
def endsWithOneNewline (s : String) : Bool :=
  match s.data.reverse with
  | '\n' :: rest => !(rest.head? == some '\n')
  | _ => false

/-! ### Map lemmas for the resolver -/

theorem alookup_map_replace (k v : String) (m : List (String × String)) :
    alookup k (m.map (fun p => if p.1 = k then (k, v) else p)) =
      if (alookup k m).isSome then some v else none := by
  induction m with
  | nil => simp [alookup]
  | cons a t ih =>
    by_cases h : a.1 = k
    · simp [alookup, h]
    · simp [alookup, h, ih]

theorem alookup_append_ne (k : String) (m : List (String × String))
    (k2 v : String) (h : k2 ≠ k) :
    alookup k (m ++ [(k2, v)]) = alookup k m := by
  induction m with
  | nil => simp [alookup, h]
  | cons a t ih =>
    by_cases ha : a.1 = k
    · simp [alookup, ha]
    · simp [alookup, ha, ih]

theorem alookup_hmInsert_self (k v : String) (m : List (String × String)) :
    alookup k (hmInsert m k v) = some v := by
  unfold hmInsert
  by_cases h : (alookup k m).isSome
  · simp [h, alookup_map_replace]
  · rw [if_neg h]
    induction m with
    | nil => simp [alookup]
    | cons a t ih =>
      by_cases ha : a.1 = k
      · exact absurd (by simp [alookup, ha]) h
      · have h2 : ¬(alookup k t).isSome = true := by simpa [alookup, ha] using h
        simpa [alookup, ha] using ih h2

theorem alookup_map_replace_ne (k k2 v : String) (m : List (String × String))
    (h : k2 ≠ k) :
    alookup k (m.map (fun p => if p.1 = k2 then (k2, v) else p)) = alookup k m := by
  induction m with
  | nil => simp [alookup]
  | cons a t ih =>
    by_cases ha : a.1 = k2
    · simp [alookup, ha, h, ih]
    · by_cases hk : a.1 = k
      · simp [alookup, ha, hk, Ne.symm h]
      · simp [alookup, ha, hk, ih]

theorem alookup_hmInsert_ne (k k2 v : String) (m : List (String × String))
    (h : k2 ≠ k) : alookup k (hmInsert m k2 v) = alookup k m := by
  unfold hmInsert
  by_cases hs : (alookup k2 m).isSome
  · rw [if_pos hs]; exact alookup_map_replace_ne k k2 v m h
  · rw [if_neg hs]; exact alookup_append_ne k m k2 v h

theorem alookup_featFold (fs : List String) (m : List (String × String)) (K : String) :
    alookup K (fs.foldl (fun m f => hmInsert m (featureDefine f) "1") m) =
      if ∃ f ∈ fs, featureDefine f = K then some "1" else alookup K m := by
  induction fs generalizing m with
  | nil => simp
  | cons f fs ih =>
    rw [List.foldl_cons, ih]
    by_cases hf : featureDefine f = K
    · by_cases hfs : ∃ g ∈ fs, featureDefine g = K
      · simp [hfs, hf]
      · simp [hfs, hf, alookup_hmInsert_self]
    · by_cases hfs : ∃ g ∈ fs, featureDefine g = K
      · simp [hfs, hf]
      · simp [hfs, hf, alookup_hmInsert_ne _ _ _ _ hf]

theorem alookup_hmExtend_notin (n : List (String × String)) (K : String)
    (h : K ∉ n.map Prod.fst) (m : List (String × String)) :
    alookup K (hmExtend m n) = alookup K m := by
  unfold hmExtend
  induction n generalizing m with
  | nil => simp
  | cons p t ih =>
    simp only [List.map_cons, List.mem_cons] at h
    push_neg at h
    rw [List.foldl_cons, ih h.2, alookup_hmInsert_ne _ _ _ _ (fun he => h.1 he.symm)]

theorem alookup_hmExtend_mem (n : List (String × String)) (K : String)
    (hnd : (n.map Prod.fst).Nodup) (h : K ∈ n.map Prod.fst)
    (m : List (String × String)) :
    alookup K (hmExtend m n) = alookup K n := by
  unfold hmExtend
  induction n generalizing m with
  | nil => simp at h
  | cons p t ih =>
    simp only [List.map_cons, List.nodup_cons] at hnd
    by_cases hp : p.1 = K
    · have hKt : K ∉ t.map Prod.fst := hp ▸ hnd.1
      rw [List.foldl_cons, show (List.foldl (fun acc p => hmInsert acc p.1 p.2)
          (hmInsert m p.1 p.2) t) = hmExtend (hmInsert m p.1 p.2) t from rfl,
        alookup_hmExtend_notin t K hKt, hp, alookup_hmInsert_self K p.2 m]
      simp [alookup, hp]
    · simp only [List.map_cons, List.mem_cons] at h
      rcases h with h | h
      · exact absurd h.symm hp
      · rw [List.foldl_cons, ih hnd.2 h]
        simp [alookup, hp]

theorem alookup_mem_of_some (K v : String) (n : List (String × String))
    (h : alookup K n = some v) : K ∈ n.map Prod.fst := by
  induction n with
  | nil => simp [alookup] at h
  | cons p t ih =>
    by_cases hp : p.1 = K
    · simp [hp]
    · simp only [alookup, hp, if_neg] at h
      simp [ih h]

/-! ### Claims about the resolver and synthesizer -/

set_option maxRecDepth 100000

/-- Claim C1, settled as a code bug: `resolve` reads the toolchain-package
list from `config.deps.keys()` (`build.rs` line 207) without sorting it, so
the resulting Directive Set — and the synthesized text — depend on the
`HashMap` iteration order, which is not a function of the descriptor. Two
iteration orders, both permutations of the same dependency keys, give
different Directive Sets and different output bytes. -/
theorem resolve_depends_on_hashmap_iteration_order :
    List.Perm ["a", "b"] (twoDepsConfig.deps.map Prod.fst) ∧
    List.Perm ["b", "a"] (twoDepsConfig.deps.map Prod.fst) ∧
    resolve twoDepsConfig "dev" [] false false ["a", "b"] ≠
      resolve twoDepsConfig "dev" [] false false ["b", "a"] ∧
    synthesize (resolve twoDepsConfig "dev" [] false false ["a", "b"]) ≠
      synthesize (resolve twoDepsConfig "dev" [] false false ["b", "a"]) := by
  decide

/-- Claim C2, settled as a code bug: the toolchain-package list is exactly
the dependency keys, but in `HashMap` iteration order, not sorted order:
the legal iteration order `["b", "a"]` reaches the synthesizer as-is, and
the find/link pair for `b` is emitted before the one for `a`, while the
spec-side sorted list is `["a", "b"]`. -/
theorem toolchain_packages_unsorted :
    List.Perm ["b", "a"] (twoDepsConfig.deps.map Prod.fst) ∧
    (resolve twoDepsConfig "dev" [] false false ["b", "a"]).vcpkg_packages =
      some ["b", "a"] ∧
    specSortedPackages twoDepsConfig = ["a", "b"] ∧
    (["b", "a"] : List String) ≠ ["a", "b"] ∧
    strContains (synthesize (resolve twoDepsConfig "dev" [] false false ["b", "a"]))
      "target_link_libraries(demo PRIVATE b::b)\n\nfind_package(a REQUIRED)" = true := by
  decide

/-- Claim C3: define precedence. If `K` is a feature-derived define of an
enabled feature, the merged defines map gives it the value `"1"`, whatever
the profile and build defines said; if `K` is in profile and build defines
and is not feature-derived, the merged map gives the build-defines value. -/
theorem resolve_define_precedence (c : ProjectConfig) (mode : String)
    (feats : List String) (af ndf : Bool) (K : String) :
    ((K ∈ (c.get_profile mode).defines.map Prod.fst) →
      (K ∈ c.build.defines.map Prod.fst) →
      (∃ f ∈ enabledFeatures c feats af ndf, featureDefine f = K) →
      alookup K (resolvedDefines c (c.get_profile mode)
        (enabledFeatures c feats af ndf)) = some "1") ∧
    ((K ∈ (c.get_profile mode).defines.map Prod.fst) →
      (c.build.defines.map Prod.fst).Nodup →
      (∀ f ∈ enabledFeatures c feats af ndf, featureDefine f ≠ K) →
      ∀ v, alookup K c.build.defines = some v →
      alookup K (resolvedDefines c (c.get_profile mode)
        (enabledFeatures c feats af ndf)) = some v) := by
  constructor
  · intro _ _ hex
    unfold resolvedDefines
    rw [alookup_featFold, if_pos hex]
  · intro _ hnd hnf v hv
    unfold resolvedDefines
    rw [alookup_featFold, if_neg (by push_neg; exact hnf),
      alookup_hmExtend_mem c.build.defines K hnd
        (alookup_mem_of_some K v c.build.defines hv), hv]

/-- Witness for C3 at a concrete descriptor: the feature-derived key wins
with value "1"; the non-feature key takes the build value. -/
theorem resolve_define_precedence_witness :
    alookup "FEATURE_X" (resolvedDefines precedenceConfig
      (precedenceConfig.get_profile "dev")
      (enabledFeatures precedenceConfig [] false false)) = some "1" ∧
    alookup "K" (resolvedDefines precedenceConfig
      (precedenceConfig.get_profile "dev")
      (enabledFeatures precedenceConfig [] false false)) = some "bval" := by
  constructor
  · exact (resolve_define_precedence precedenceConfig "dev" [] false false
      "FEATURE_X").1 (by decide) (by decide) (by decide)
  · exact (resolve_define_precedence precedenceConfig "dev" [] false false
      "K").2 (by decide) (by decide) (by decide) "bval" (by decide)

/-- Claim C4: the enabled-feature set with `no_default_features = false` is a
superset of the one computed with `no_default_features = true` from the same
inputs. -/
theorem enabled_features_monotone (c : ProjectConfig) (feats : List String)
    (af : Bool) (x : String) :
    x ∈ enabledFeatures c feats af true → x ∈ enabledFeatures c feats af false := by
  intro hx
  have hx2 : x ∈ (if af then c.features.map Prod.fst else feats) := by
    simpa [enabledFeatures] using hx
  simp only [enabledFeatures, if_neg Bool.false_ne_true, List.mem_append]
  exact Or.inr hx2

/-- Witness for C4: an explicitly requested feature enabled under
`no_default_features = true` is still enabled with the flag off. -/
theorem enabled_features_monotone_witness :
    "x" ∈ enabledFeatures endToEndConfig ["x"] false false :=
  enabled_features_monotone endToEndConfig ["x"] false "x" (by decide)

/-- Claim C5: profile lookup is total, with the cases tried in the order of
the source `match`: `"dev"`/`"debug"` give the dev profile, `"release"` the
release profile, any other name present in the custom map that custom
profile, and any remaining name falls back to the dev profile. -/
theorem get_profile_total_cases (c : ProjectConfig) (mode : String)
    (p : ProfileConfig) :
    c.get_profile "dev" = c.profile.dev ∧
    c.get_profile "debug" = c.profile.dev ∧
    c.get_profile "release" = c.profile.release ∧
    (mode ≠ "dev" → mode ≠ "debug" → mode ≠ "release" →
      ((List.lookup mode c.profile.custom = some p → c.get_profile mode = p) ∧
       (List.lookup mode c.profile.custom = none →
          c.get_profile mode = c.profile.dev))) := by
  refine ⟨by simp [ProjectConfig.get_profile], by simp [ProjectConfig.get_profile],
    by simp [ProjectConfig.get_profile], ?_⟩
  intro h1 h2 h3
  unfold ProjectConfig.get_profile
  rw [if_neg h1, if_neg h2, if_neg h3]
  constructor
  · intro hl; rw [hl]; rfl
  · intro hl; rw [hl]; rfl

/-- Witness for C5 at a concrete descriptor: a custom name resolves to the
custom profile, an unknown name falls back to dev. -/
theorem get_profile_total_cases_witness :
    customProfileConfig.get_profile "fast" = fastProfile ∧
    customProfileConfig.get_profile "mystery" = customProfileConfig.profile.dev := by
  constructor
  · exact ((get_profile_total_cases customProfileConfig "fast" fastProfile).2.2.2
      (by decide) (by decide) (by decide)).1 (by decide)
  · exact ((get_profile_total_cases customProfileConfig "mystery" fastProfile).2.2.2
      (by decide) (by decide) (by decide)).2 (by decide)

/-- Claim C9: the end-to-end descriptor resolved with profile `release`,
no explicit features and default flags yields a library Directive Set with
standard `"17"`, toolchain packages `["fmt"]` and `lto = true`, and the
synthesized text contains the library target declaration and the
find/link block for `fmt`. -/
theorem end_to_end_release_lib :
    (resolve endToEndConfig "release" [] false false ["fmt"]).is_library = true ∧
    (resolve endToEndConfig "release" [] false false ["fmt"]).cpp_std = some "17" ∧
    (resolve endToEndConfig "release" [] false false ["fmt"]).vcpkg_packages =
      some ["fmt"] ∧
    (resolve endToEndConfig "release" [] false false ["fmt"]).lto = true ∧
    strContains (synthesize (resolve endToEndConfig "release" [] false false ["fmt"]))
      "add_library(mylib ${SOURCES})" = true ∧
    strContains (synthesize (resolve endToEndConfig "release" [] false false ["fmt"]))
      "find_package(fmt REQUIRED)" = true ∧
    strContains (synthesize (resolve endToEndConfig "release" [] false false ["fmt"]))
      "target_link_libraries(mylib PRIVATE fmt::fmt)" = true := by
  decide

/-! ### Lemmas and claims for the manifest mutator -/


theorem joinSep_append (xs ys : List (List Char)) :
    joinSep (xs ++ ys) = joinSep xs ++ joinSep ys := by
  unfold joinSep
  rw [List.foldr_append]
  induction xs with
  | nil => simp
  | cons a t ih => simp [ih]

theorem joinSep_eq_nil_iff (ls : List (List Char)) : joinSep ls = [] ↔ ls = [] := by
  cases ls with
  | nil => simp [joinSep]
  | cons a t => simp [joinSep]

theorem getLast?_joinNL (ls : List (List Char)) :
    (joinNL ls).getLast? = some '\n' := by
  unfold joinNL
  by_cases h : ls.isEmpty
  · simp [h]
  · rw [if_neg h]
    have hls : ls ≠ [] := by simpa using h
    have hdecomp : ls = ls.dropLast ++ [ls.getLast hls] :=
      (List.dropLast_append_getLast hls).symm
    conv_lhs => rw [hdecomp]
    rw [joinSep_append, List.getLast?_append,
      show joinSep [ls.getLast hls] = ls.getLast hls ++ ['\n'] from rfl,
      List.getLast?_concat]
    rfl

theorem exactlyOne_joinNL (ls : List (List Char)) (l : List Char)
    (hl : ls.getLast? = some l) (hne : l ≠ [])
    (hlast : l.getLast? ≠ some '\n') :
    endsWithOneNewline (String.mk (joinNL ls)) = true := by
  have hls : ls ≠ [] := by intro h; subst h; simp at hl
  have hgl : ls.getLast hls = l := by
    rw [List.getLast?_eq_getLast ls hls] at hl
    exact Option.some_inj.mp hl
  obtain ⟨c, r2, hrev⟩ : ∃ c r2, l.reverse = c :: r2 := by
    cases hr : l.reverse with
    | nil => exact absurd (by simpa using congrArg List.reverse hr) hne
    | cons c r2 => exact ⟨c, r2, rfl⟩
  have hc : ¬(c == '\n') = true := by
    intro h
    apply hlast
    rw [← List.head?_reverse, hrev]
    simpa using (beq_iff_eq.mp h)
  have hdecomp : ls = ls.dropLast ++ [l] := by
    conv_lhs => rw [← List.dropLast_append_getLast hls]
    rw [hgl]
  have hjoin : joinNL ls = joinSep ls.dropLast ++ (l ++ ['\n']) := by
    unfold joinNL
    rw [if_neg (by simpa using hls)]
    conv_lhs => rw [hdecomp]
    rw [joinSep_append]
    rfl
  have hrevj : (joinNL ls).reverse = '\n' :: (c :: (r2 ++ (joinSep ls.dropLast).reverse)) := by
    rw [hjoin, List.reverse_append, List.reverse_append, hrev]
    simp
  unfold endsWithOneNewline
  rw [show (String.mk (joinNL ls)).data = joinNL ls from rfl, hrevj]
  simp [hc]



theorem splitNLChars_ne_nil (s : List Char) : splitNLChars s ≠ [] := by
  cases s with
  | nil => simp [splitNLChars]
  | cons c cs =>
    rw [splitNLChars]
    by_cases hc : c = '\n'
    · simp [hc]
    · rw [if_neg hc]
      cases splitNLChars cs with
      | nil => simp
      | cons p ps => simp

theorem splitNLChars_cons_ne (c : Char) (cs : List Char) (hc : ¬c = '\n')
    (p : List Char) (ps : List (List Char)) (hsp : splitNLChars cs = p :: ps) :
    splitNLChars (c :: cs) = (c :: p) :: ps := by
  rw [splitNLChars, if_neg hc, hsp]

theorem no_newline_splitNLChars (s : List Char) :
    ∀ x ∈ splitNLChars s, '\n' ∉ x := by
  induction s with
  | nil =>
    intro x hx
    simp [splitNLChars] at hx
    subst hx; simp
  | cons c cs ih =>
    intro x hx
    by_cases hc : c = '\n'
    · subst hc
      rw [splitNLChars, if_pos rfl] at hx
      rcases List.mem_cons.mp hx with rfl | hx
      · simp
      · exact ih x hx
    · obtain ⟨p, ps, hsp⟩ : ∃ p ps, splitNLChars cs = p :: ps := by
        cases h : splitNLChars cs with
        | nil => exact absurd h (splitNLChars_ne_nil cs)
        | cons p ps => exact ⟨p, ps, rfl⟩
      rw [splitNLChars_cons_ne c cs hc p ps hsp] at hx
      rcases List.mem_cons.mp hx with rfl | hx
      · intro hmem
        rcases List.mem_cons.mp hmem with h | h
        · exact hc h.symm
        · exact ih p (hsp ▸ List.mem_cons_self p ps) h
      · exact ih x (hsp ▸ List.mem_cons_of_mem p hx)

theorem splitNL_append_newline (m t : List Char) (hm : '\n' ∉ m) :
    splitNLChars (m ++ '\n' :: t) = m :: splitNLChars t := by
  induction m with
  | nil => simp [splitNLChars]
  | cons a m2 ih =>
    have ha : ¬a = '\n' := by
      intro h; exact hm (h ▸ List.mem_cons_self a m2)
    have hm2 : '\n' ∉ m2 := fun h => hm (List.mem_cons_of_mem a h)
    rw [List.cons_append, splitNLChars_cons_ne a (m2 ++ '\n' :: t) ha m2
      (splitNLChars t) (ih hm2)]

theorem splitNL_joinSep (M : List (List Char)) (hM : ∀ x ∈ M, '\n' ∉ x) :
    splitNLChars (joinSep M) = M ++ [[]] := by
  induction M with
  | nil => simp [joinSep, splitNLChars]
  | cons m M2 ih =>
    have hm : '\n' ∉ m := hM m (List.mem_cons_self m M2)
    have hM2 : ∀ x ∈ M2, '\n' ∉ x := fun x hx => hM x (List.mem_cons_of_mem m hx)
    show splitNLChars (m ++ '\n' :: joinSep M2) = (m :: M2) ++ [[]]
    rw [splitNL_append_newline m (joinSep M2) hm, ih hM2]
    rfl

theorem rustLines_joinNL (M : List (List Char)) (hM0 : M ≠ [])
    (hM : ∀ x ∈ M, '\n' ∉ x) :
    rustLines (joinNL M) = M.map stripCR := by
  unfold rustLines joinNL
  rw [if_neg (by simpa using hM0), splitNL_joinSep M hM]
  show List.map stripCR (M ++ [[]]).dropLast ++ _ = _
  simp [List.dropLast_concat, List.getLast?_concat]



theorem no_newline_stripCR (x : List Char) (h : '\n' ∉ x) : '\n' ∉ stripCR x := by
  unfold stripCR
  by_cases hl : x.getLast? = some '\r'
  · rw [if_pos hl]
    intro hmem
    exact h (List.dropLast_sublist x |>.mem hmem)
  · rw [if_neg hl]; exact h

theorem no_newline_rustLines (s : List Char) : ∀ x ∈ rustLines s, '\n' ∉ x := by
  intro x hx
  unfold rustLines at hx
  rcases List.mem_append.mp hx with hx | hx
  · obtain ⟨y, hy, rfl⟩ := List.mem_map.mp hx
    exact no_newline_stripCR y
      (no_newline_splitNLChars s y (List.dropLast_sublist _ |>.mem hy))
  · rcases hgl : (splitNLChars s).getLast? with _ | p
    · rw [hgl] at hx; simp at hx
    · rw [hgl] at hx
      have hp : p ∈ splitNLChars s := by
        obtain ⟨h1, h2⟩ := List.mem_getLast?_eq_getLast (by rw [hgl]; rfl)
        exact h2 ▸ List.getLast_mem h1
      cases p with
      | nil => simp at hx
      | cons a q =>
        simp at hx
        exact hx ▸ no_newline_splitNLChars s (a :: q) hp

theorem mem_insertAt (n : Nat) (s : List Char) (l : List (List Char)) :
    ∀ x ∈ insertAt n s l, x = s ∨ x ∈ l := by
  induction n generalizing l with
  | zero =>
    intro x hx
    rcases List.mem_cons.mp hx with rfl | hx
    · exact Or.inl rfl
    · exact Or.inr hx
  | succ n ih =>
    intro x hx
    cases l with
    | nil => simp [insertAt] at hx; exact Or.inl hx
    | cons a t =>
      rw [insertAt] at hx
      rcases List.mem_cons.mp hx with rfl | hx
      · exact Or.inr (List.mem_cons_self _ _)
      · rcases ih t x hx with h | h
        · exact Or.inl h
        · exact Or.inr (List.mem_cons_of_mem a h)

theorem sublist_insertAt (n : Nat) (s : List Char) (l : List (List Char)) :
    l.Sublist (insertAt n s l) := by
  induction n generalizing l with
  | zero => exact List.sublist_cons_self s l
  | succ n ih =>
    cases l with
    | nil => simp [insertAt]
    | cons a t => exact (ih t).cons₂ a

theorem insertAt_at_end (s : List Char) (l : List (List Char)) :
    insertAt l.length s l = l ++ [s] := by
  induction l with
  | nil => rfl
  | cons a t ih => rw [List.length_cons, insertAt, ih]; rfl

theorem insertAt_eq_append (n : Nat) (s : List Char) (l : List (List Char))
    (h : n ≤ l.length) : insertAt n s l = l.take n ++ s :: l.drop n := by
  induction n generalizing l with
  | zero => simp [insertAt]
  | succ n ih =>
    cases l with
    | nil => simp at h
    | cons a t =>
      rw [insertAt, ih t (Nat.le_of_succ_le_succ h)]
      rfl

theorem mem_addLoop (ex P : List (List Char)) (ii : Nat) (lines : List (List Char)) :
    ∀ x ∈ addLoop ex P ii lines, x ∈ lines ∨ ∃ p ∈ P, x = depLine p := by
  induction P generalizing ii lines with
  | nil => intro x hx; exact Or.inl hx
  | cons pkg rest ih =>
    intro x hx
    rw [addLoop] at hx
    by_cases hp : ex.any (fun d => pkg.isPrefixOf d)
    · rw [if_pos hp] at hx
      rcases ih ii lines x hx with h | ⟨p, hp2, hx2⟩
      · exact Or.inl h
      · exact Or.inr ⟨p, List.mem_cons_of_mem pkg hp2, hx2⟩
    · rw [if_neg hp] at hx
      rcases ih (ii + 1) (insertAt ii (depLine pkg) lines) x hx with h | ⟨p, hp2, hx2⟩
      · rcases mem_insertAt ii (depLine pkg) lines x h with h2 | h2
        · exact Or.inr ⟨pkg, List.mem_cons_self _ _, h2⟩
        · exact Or.inl h2
      · exact Or.inr ⟨p, List.mem_cons_of_mem pkg hp2, hx2⟩

theorem sublist_addLoop (ex P : List (List Char)) (ii : Nat) (lines : List (List Char)) :
    lines.Sublist (addLoop ex P ii lines) := by
  induction P generalizing ii lines with
  | nil => exact List.Sublist.refl lines
  | cons pkg rest ih =>
    rw [addLoop]
    by_cases hp : ex.any (fun d => pkg.isPrefixOf d)
    · rw [if_pos hp]; exact ih ii lines
    · rw [if_neg hp]
      exact (sublist_insertAt ii (depLine pkg) lines).trans
        (ih (ii + 1) (insertAt ii (depLine pkg) lines))

theorem mem_addLinesCore (L P : List (List Char)) :
    ∀ x ∈ addLinesCore L P,
      x ∈ L ∨ x = [] ∨ x = headerLine ∨ ∃ p ∈ P, x = depLine p := by
  intro x hx
  unfold addLinesCore at hx
  cases hd : depsIdx L with
  | some di =>
    rw [hd] at hx
    rcases mem_addLoop _ _ _ _ x hx with h | h
    · exact Or.inl h
    · exact Or.inr (Or.inr (Or.inr h))
  | none =>
    rw [hd] at hx
    rcases mem_addLoop _ _ _ _ x hx with h | h
    · rcases List.mem_append.mp h with h2 | h2
      · exact Or.inl h2
      · rcases List.mem_cons.mp h2 with rfl | h3
        · exact Or.inr (Or.inl rfl)
        · simp at h3
          exact Or.inr (Or.inr (Or.inl h3))
    · exact Or.inr (Or.inr (Or.inr h))

theorem sublist_addLinesCore (L P : List (List Char)) :
    L.Sublist (addLinesCore L P) := by
  unfold addLinesCore
  cases hd : depsIdx L with
  | some di => exact sublist_addLoop _ _ _ _
  | none =>
    exact (List.sublist_append_left L [[], headerLine]).trans (sublist_addLoop _ _ _ _)

theorem depLine_getLast? (p : List Char) : (depLine p).getLast? = some '"' := by
  unfold depLine
  rw [show (" = \"*\"".data : List Char) = [' ', '=', ' ', '"', '*', '"'] from rfl]
  rw [show p ++ [' ', '=', ' ', '"', '*', '"'] = p ++ [' ', '=', ' ', '"', '*'] ++ ['"'] by simp]
  exact List.getLast?_concat _




theorem mem_of_getLast?_eq {α : Type} (l : List α) (x : α)
    (h : l.getLast? = some x) : x ∈ l := by
  obtain ⟨h1, h2⟩ := List.mem_getLast?_eq_getLast (show x ∈ l.getLast? by rw [h]; rfl)
  exact h2 ▸ List.getLast_mem h1

theorem getLast?_ne_newline_of_no_newline (l : List Char) (h : '\n' ∉ l) :
    l.getLast? ≠ some '\n' := by
  intro hc
  exact h (mem_of_getLast?_eq l '\n' hc)

theorem addLinesCore_ne_nil (L P : List (List Char)) : addLinesCore L P ≠ [] := by
  intro h
  cases hd : depsIdx L with
  | some di =>
    simp only [addLinesCore, hd] at h
    have hL : L ≠ [] := by
      intro h2; subst h2; simp [depsIdx] at hd
    have hs := sublist_addLoop (existingEntries (sectionRun L di)) P
      (di + 1 + scanLen (L.drop (di + 1))) L
    rw [h] at hs
    exact hL (List.sublist_nil.mp hs)
  | none =>
    simp only [addLinesCore, hd] at h
    have hs := sublist_addLoop
      (existingEntries (sectionRun (L ++ [[], headerLine]) (L.length + 1))) P
      (L.length + 1 + 1 + scanLen ((L ++ [[], headerLine]).drop (L.length + 1 + 1)))
      (L ++ [[], headerLine])
    rw [h] at hs
    have := List.sublist_nil.mp hs
    simp at this

/-- Claim C6 (amended): both mutator outputs always end with a newline, and
end with exactly one trailing newline whenever the rewritten line sequence
ends with a non-empty line (trailing blank lines preserved from the input
produce extra trailing newlines; see the counterexample). -/
theorem mutators_trailing_newline (doc : String) (names : List String)
    (hne : names ≠ []) :
    endsWithNewline (add_dependencies_to_toml doc names) = true ∧
    endsWithNewline (remove_dependencies_from_toml doc names) = true ∧
    (∀ l, (addLinesCore (rustLines doc.data) (names.map String.data)).getLast? = some l →
      l ≠ [] → endsWithOneNewline (add_dependencies_to_toml doc names) = true) ∧
    (∀ l, (removeLinesCore (rustLines doc.data) (names.map String.data)).getLast? = some l →
      l ≠ [] → endsWithOneNewline (remove_dependencies_from_toml doc names) = true) := by
  refine ⟨?_, ?_, ?_, ?_⟩
  · unfold endsWithNewline add_dependencies_to_toml
    rw [show (String.mk (joinNL (addLinesCore (rustLines doc.data)
      (names.map String.data)))).data = joinNL (addLinesCore (rustLines doc.data)
      (names.map String.data)) from rfl, getLast?_joinNL]
    rfl
  · unfold endsWithNewline remove_dependencies_from_toml
    rw [show (String.mk (joinNL (removeLinesCore (rustLines doc.data)
      (names.map String.data)))).data = joinNL (removeLinesCore (rustLines doc.data)
      (names.map String.data)) from rfl, getLast?_joinNL]
    rfl
  · intro l hl hlne
    apply exactlyOne_joinNL _ l hl hlne
    have hmem : l ∈ addLinesCore (rustLines doc.data) (names.map String.data) :=
      mem_of_getLast?_eq _ l hl
    rcases mem_addLinesCore _ _ l hmem with h | h | h | ⟨p, _, rfl⟩
    · exact getLast?_ne_newline_of_no_newline l (no_newline_rustLines doc.data l h)
    · exact absurd h hlne
    · subst h; decide
    · rw [depLine_getLast?]; decide
  · intro l hl hlne
    apply exactlyOne_joinNL _ l hl hlne
    have hmem : l ∈ removeLinesCore (rustLines doc.data) (names.map String.data) :=
      mem_of_getLast?_eq _ l hl
    exact getLast?_ne_newline_of_no_newline l
      (no_newline_rustLines doc.data l (List.mem_of_mem_filter hmem))

/-- Claim C6 counterexample: on a document ending with a blank line both
mutators return text ending in two newlines, not exactly one. -/
theorem mutators_trailing_newline_cex :
    remove_dependencies_from_toml "x\n\n" ["a"] = "x\n\n" ∧
    endsWithOneNewline "x\n\n" = false ∧
    add_dependencies_to_toml "[deps]\n\n" ["zlib"] = "[deps]\nzlib = \"*\"\n\n" ∧
    endsWithOneNewline "[deps]\nzlib = \"*\"\n\n" = false := by
  decide

/-- Witness for the amended C6 on a concrete document. -/
theorem mutators_trailing_newline_witness :
    endsWithNewline (add_dependencies_to_toml "x\n" ["a"]) = true ∧
    endsWithNewline (remove_dependencies_from_toml "x\n" ["a"]) = true ∧
    endsWithOneNewline (add_dependencies_to_toml "x\n" ["a"]) = true ∧
    endsWithOneNewline (remove_dependencies_from_toml "x\n" ["a"]) = true := by
  obtain ⟨h1, h2, h3, h4⟩ := mutators_trailing_newline "x\n" ["a"] (by decide)
  exact ⟨h1, h2, h3 ("a = \"*\"".data) (by decide) (by decide),
    h4 ("x".data) (by decide) (by decide)⟩



/-- Claim C10 counterexample: on input `"a\r\r\n"` the single input line is
`"a\r"` (Rust `lines()` strips the `\r` of the `\r\n` terminator), but the
output's lines are `["a", "", "[deps]", ...]` — re-splitting the rebuilt
text strips one more `\r`, so the input line does not appear in the
output. -/
theorem add_insert_only_cex :
    rustLines ("a\r\r\n".data) = [['a', '\r']] ∧
    rustLines ((add_dependencies_to_toml "a\r\r\n" ["z"]).data) =
      [['a'], [], headerLine, depLine ['z']] ∧
    ['a', '\r'] ∉ rustLines ((add_dependencies_to_toml "a\r\r\n" ["z"]).data) := by
  decide

theorem splitNL_append_cons_newline (a t : List Char) :
    splitNLChars (a ++ '\n' :: t) = splitNLChars a ++ splitNLChars t := by
  induction a with
  | nil => simp [splitNLChars]
  | cons c a2 ih =>
    by_cases hc : c = '\n'
    · subst hc
      rw [List.cons_append, splitNLChars, if_pos rfl, ih,
        show splitNLChars ('\n' :: a2) = [] :: splitNLChars a2 from by
          rw [splitNLChars, if_pos rfl]]
      rfl
    · obtain ⟨p, ps, hsp⟩ : ∃ p ps, splitNLChars a2 = p :: ps := by
        cases h : splitNLChars a2 with
        | nil => exact absurd h (splitNLChars_ne_nil a2)
        | cons p ps => exact ⟨p, ps, rfl⟩
      rw [List.cons_append,
        splitNLChars_cons_ne c (a2 ++ '\n' :: t) hc p (ps ++ splitNLChars t)
          (by rw [ih, hsp]; rfl),
        splitNLChars_cons_ne c a2 hc p ps hsp]
      rfl

theorem splitNL_singleton_of_no_newline (l : List Char) (h : '\n' ∉ l) :
    splitNLChars l = [l] := by
  induction l with
  | nil => rfl
  | cons c l2 ih =>
    have hc : ¬c = '\n' := by
      intro h2; exact h (h2 ▸ List.mem_cons_self c l2)
    have h2 : '\n' ∉ l2 := fun hm => h (List.mem_cons_of_mem c hm)
    rw [splitNLChars_cons_ne c l2 hc l2 [] (ih h2)]

theorem splitNL_joinSep_flatten (M : List (List Char)) :
    splitNLChars (joinSep M) = (M.map splitNLChars).flatten ++ [[]] := by
  induction M with
  | nil => rfl
  | cons m M2 ih =>
    show splitNLChars (m ++ '\n' :: joinSep M2) = _
    rw [splitNL_append_cons_newline, ih]
    simp

theorem rustLines_joinNL_flatten (M : List (List Char)) (hM0 : M ≠ []) :
    rustLines (joinNL M) = ((M.map splitNLChars).flatten).map stripCR := by
  unfold rustLines joinNL
  rw [if_neg (by simpa using hM0), splitNL_joinSep_flatten M]
  show List.map stripCR ((M.map splitNLChars).flatten ++ [[]]).dropLast ++ _ = _
  simp [List.dropLast_concat, List.getLast?_concat]

theorem flatten_splitNL_of_no_newline (L : List (List Char))
    (h : ∀ x ∈ L, ('\n' : Char) ∉ x) :
    (L.map splitNLChars).flatten = L := by
  induction L with
  | nil => rfl
  | cons l L2 ih =>
    rw [List.map_cons, List.flatten_cons,
      splitNL_singleton_of_no_newline l (h l (List.mem_cons_self l L2)),
      ih (fun x hx => h x (List.mem_cons_of_mem l hx))]
    rfl

theorem flatten_sublist_of_sublist {α : Type} {xss yss : List (List α)}
    (h : xss.Sublist yss) : xss.flatten.Sublist yss.flatten := by
  induction h with
  | slnil => simp
  | cons ys _ ih =>
    rw [List.flatten_cons]
    exact ih.trans (List.sublist_append_right ys _)
  | cons₂ ys _ ih =>
    rw [List.flatten_cons, List.flatten_cons]
    exact ih.append_left ys

/-- Claim C10 (amended): `addDependencies` is insert-only up to carriage
returns: for every document and every list of requested names, every line
of the input document, after stripping a trailing `'\r'`, appears unchanged
and in its original relative order among the output's lines. Re-splitting
the rebuilt text only expands inserted elements (a requested name
containing a newline yields several output lines), never the preserved
originals, which are newline-free. -/
theorem add_insert_only_mod_cr (doc : String) (names : List String) :
    (((rustLines doc.data).map stripCR)).Sublist
      (rustLines ((add_dependencies_to_toml doc names).data)) := by
  have hLnl := no_newline_rustLines doc.data
  rw [show ((add_dependencies_to_toml doc names).data) =
    joinNL (addLinesCore (rustLines doc.data) (names.map String.data)) from rfl]
  rw [rustLines_joinNL_flatten _ (addLinesCore_ne_nil _ _)]
  apply List.Sublist.map
  conv_lhs => rw [← flatten_splitNL_of_no_newline (rustLines doc.data) hLnl]
  exact flatten_sublist_of_sublist ((sublist_addLinesCore _ _).map splitNLChars)

theorem insertAt_ge_length (n : Nat) (s : List Char) (l : List (List Char))
    (h : l.length ≤ n) : insertAt n s l = l ++ [s] := by
  induction l generalizing n with
  | nil =>
    cases n with
    | zero => rfl
    | succ n => rfl
  | cons a t ih =>
    cases n with
    | zero => simp at h
    | succ n =>
      rw [insertAt, ih n (by simpa using h)]
      rfl

/-- The no-header branch of `addLinesCore`: the blank line, the header and
one entry per requested package are appended at the end of the document. -/
theorem addLinesCore_no_header (L : List (List Char)) (pkg : List Char)
    (hd : depsIdx L = none) :
    addLinesCore L [pkg] = L ++ [[], headerLine, depLine pkg] := by
  simp only [addLinesCore, hd]
  have h1 : (L ++ [[], headerLine]).drop (L.length + 1 + 1) = [] :=
    List.drop_eq_nil_of_le (by simp)
  have h2 : sectionRun (L ++ [[], headerLine]) (L.length + 1) = [] := by
    unfold sectionRun
    rw [h1]
    rfl
  rw [h2, h1]
  show addLoop [] [pkg] (L.length + 1 + 1 + scanLen []) (L ++ [[], headerLine]) = _
  rw [show scanLen [] = 0 from rfl]
  rw [addLoop, if_neg (by simp)]
  rw [addLoop]
  rw [insertAt_ge_length _ _ _ (by simp)]
  simp

/-- Claim C8: on a document with no dependency-section header line,
`addDependencies` with `["zlib"]` returns a document ending in the header
line followed by exactly one entry line for `zlib`, with exactly one
trailing newline. -/
theorem add_creates_header_section (doc : String)
    (h : ∀ l ∈ rustLines doc.data, trimChars l ≠ headerLine) :
    strEndsWith (add_dependencies_to_toml doc ["zlib"]) "\n[deps]\nzlib = \"*\"\n" = true ∧
    endsWithOneNewline (add_dependencies_to_toml doc ["zlib"]) = true := by
  have hd : depsIdx (rustLines doc.data) = none := by
    rw [depsIdx, List.findIdx?_eq_none_iff]
    intro x hx
    simpa using h x hx
  have hM : addLinesCore (rustLines doc.data) ["zlib".data] =
      rustLines doc.data ++ [[], headerLine, depLine "zlib".data] :=
    addLinesCore_no_header _ _ hd
  constructor
  · apply List.isSuffixOf_iff_suffix.mpr
    refine ⟨joinSep (rustLines doc.data), ?_⟩
    rw [show ((add_dependencies_to_toml doc ["zlib"]).data) =
      joinNL (addLinesCore (rustLines doc.data) ["zlib".data]) from rfl, hM]
    unfold joinNL
    rw [if_neg (by simp), joinSep_append]
    rfl
  · apply exactlyOne_joinNL _ (depLine "zlib".data)
    · rw [show List.map String.data ["zlib"] = ["zlib".data] from rfl, hM,
        List.getLast?_append]
      rfl
    · decide
    · rw [depLine_getLast?]; decide



theorem trimChars_append_ws (x : List Char) (c : Char)
    (hc : c.isWhitespace = true) : trimChars (x ++ [c]) = trimChars x := by
  unfold trimChars
  rw [List.dropWhile_append]
  by_cases h : (x.dropWhile Char.isWhitespace).isEmpty
  · rw [if_pos h]
    have hx : x.dropWhile Char.isWhitespace = [] := by simpa using h
    rw [hx]
    simp [List.dropWhile, hc]
  · rw [if_neg h]
    rw [List.reverse_append]
    show ((([c].reverse ++ _).dropWhile Char.isWhitespace).reverse = _)
    rw [show ([c] : List Char).reverse = [c] from rfl]
    rw [show ([c] : List Char) ++ (x.dropWhile Char.isWhitespace).reverse =
      c :: (x.dropWhile Char.isWhitespace).reverse from rfl]
    rw [List.dropWhile_cons_of_pos hc]

theorem trimChars_stripCR (l : List Char) : trimChars (stripCR l) = trimChars l := by
  unfold stripCR
  by_cases h : l.getLast? = some '\r'
  · rw [if_pos h]
    have hl : l ≠ [] := by intro h2; subst h2; simp at h
    have hdecomp : l = l.dropLast ++ ['\r'] := by
      conv_lhs => rw [← List.dropLast_append_getLast hl]
      have : l.getLast hl = '\r' := by
        rw [List.getLast?_eq_getLast l hl] at h
        exact Option.some_inj.mp h
      rw [this]
    conv_rhs => rw [hdecomp]
    rw [trimChars_append_ws _ _ (by decide)]
  · rw [if_neg h]

theorem depsIdx_map_stripCR (M : List (List Char)) :
    depsIdx (M.map stripCR) = depsIdx M := by
  unfold depsIdx
  rw [List.findIdx?_map]
  congr 1
  funext l
  show (trimChars (stripCR l) == headerLine) = (trimChars l == headerLine)
  rw [trimChars_stripCR]

theorem scanLen_map_stripCR (r : List (List Char)) :
    scanLen (r.map stripCR) = scanLen r := by
  induction r with
  | nil => rfl
  | cons l t ih =>
    show scanLen (stripCR l :: t.map stripCR) = scanLen (l :: t)
    rw [scanLen, scanLen, trimChars_stripCR, ih]

theorem existingEntries_map_stripCR (run : List (List Char)) :
    existingEntries (run.map stripCR) = existingEntries run := by
  unfold existingEntries
  rw [List.filterMap_map]
  congr 1
  funext l
  show (if (!(trimChars (stripCR l)).isEmpty && !isComment (trimChars (stripCR l))) = true
      then some (trimChars (stripCR l)) else none) =
    (if (!(trimChars l).isEmpty && !isComment (trimChars l)) = true
      then some (trimChars l) else none)
  rw [trimChars_stripCR]

theorem sectionRun_map_stripCR (M : List (List Char)) (di : Nat) :
    sectionRun (M.map stripCR) di = (sectionRun M di).map stripCR := by
  unfold sectionRun
  rw [← List.map_drop, scanLen_map_stripCR, List.map_take]

theorem entriesOfLines_map_stripCR (M : List (List Char)) :
    entriesOfLines (M.map stripCR) = entriesOfLines M := by
  unfold entriesOfLines
  rw [depsIdx_map_stripCR]
  cases depsIdx M with
  | none => rfl
  | some di =>
    show existingEntries (sectionRun (M.map stripCR) di) = existingEntries (sectionRun M di)
    rw [sectionRun_map_stripCR, existingEntries_map_stripCR]



theorem findIdx?_some_lt_length_aux (p : List Char → Bool) (l : List (List Char)) :
    ∀ i j, List.findIdx? p l i = some j → j < i + l.length := by
  induction l with
  | nil => intro i j h; simp at h
  | cons x xs ih =>
    intro i j h
    rw [List.findIdx?_cons] at h
    by_cases hp : p x = true
    · rw [if_pos hp] at h
      have hij : i = j := Option.some_inj.mp h
      rw [List.length_cons]
      omega
    · rw [if_neg hp] at h
      have := ih (i + 1) j h
      rw [List.length_cons]
      omega

theorem depsIdx_some_lt_length (L : List (List Char)) (di : Nat)
    (h : depsIdx L = some di) : di < L.length := by
  have := findIdx?_some_lt_length_aux (fun l => trimChars l == headerLine) L 0 di h
  omega

theorem scanLen_le_length (xs : List (List Char)) : scanLen xs ≤ xs.length := by
  induction xs with
  | nil => simp [scanLen]
  | cons l t ih =>
    rw [scanLen]
    by_cases h1 : isSectionHeader (trimChars l)
    · simp [h1]
    · rw [if_neg h1]
      by_cases h2 : (!(trimChars l).isEmpty && !isComment (trimChars l)) = true
      · rw [if_pos h2, List.length_cons]
        omega
      · rw [if_neg h2]
        simp

theorem mem_sectionRun (L : List (List Char)) (di : Nat) :
    ∀ x ∈ sectionRun L di, x ∈ L := by
  intro x hx
  unfold sectionRun at hx
  exact (List.drop_sublist (di + 1) L).mem ((List.take_sublist _ _).mem hx)

theorem mem_existingEntries (run : List (List Char)) :
    ∀ e ∈ existingEntries run, ∃ l ∈ run, e = trimChars l := by
  intro e he
  unfold existingEntries at he
  obtain ⟨l, hl, hsome⟩ := List.mem_filterMap.mp he
  refine ⟨l, hl, ?_⟩
  by_cases hc : (!(trimChars l).isEmpty && !isComment (trimChars l)) = true
  · rw [if_pos hc] at hsome
    exact (Option.some_inj.mp hsome).symm
  · rw [if_neg hc] at hsome
    simp at hsome

theorem insertAt_insertAt (n : Nat) (x y : List Char) (l : List (List Char))
    (h : n ≤ l.length) :
    insertAt (n + 1) y (insertAt n x l) = l.take n ++ x :: y :: l.drop n := by
  induction n generalizing l with
  | zero => rfl
  | succ n ih =>
    cases l with
    | nil => simp at h
    | cons a t =>
      show a :: insertAt (n + 1) y (insertAt n x t) = a :: (t.take n ++ x :: y :: t.drop n)
      rw [ih t (by simpa using h)]



theorem addLoop_nil_existing_at_end (P : List (List Char)) (lines : List (List Char)) :
    addLoop [] P lines.length lines = lines ++ P.map depLine := by
  induction P generalizing lines with
  | nil => rw [addLoop]; simp
  | cons p rest ih =>
    rw [addLoop, if_neg (by simp)]
    rw [insertAt_ge_length _ _ _ (Nat.le_refl _)]
    have h2 := ih (lines ++ [depLine p])
    rw [show (lines ++ [depLine p]).length = lines.length + 1 from by simp] at h2
    rw [h2]
    simp

theorem addLinesCore_no_header_list (L P : List (List Char))
    (hd : depsIdx L = none) :
    addLinesCore L P = L ++ [[], headerLine] ++ P.map depLine := by
  simp only [addLinesCore, hd]
  have h1 : (L ++ [[], headerLine]).drop (L.length + 1 + 1) = [] :=
    List.drop_eq_nil_of_le (by simp)
  have h2 : sectionRun (L ++ [[], headerLine]) (L.length + 1) = [] := by
    unfold sectionRun
    rw [h1]
    rfl
  rw [h2, h1]
  show addLoop [] P (L.length + 1 + 1 + scanLen []) (L ++ [[], headerLine]) = _
  rw [show scanLen [] = 0 from rfl, Nat.add_zero,
    show L.length + 1 + 1 = (L ++ [[], headerLine]).length from by simp,
    addLoop_nil_existing_at_end]

theorem no_newline_map_stripCR (L : List (List Char))
    (h : ∀ x ∈ L, ('\n' : Char) ∉ x) :
    ∀ x ∈ L.map stripCR, ('\n' : Char) ∉ x := by
  intro x hx
  obtain ⟨y, hy, rfl⟩ := List.mem_map.mp hx
  exact no_newline_stripCR y (h y hy)

/-- Claim C7: removing `a` and `b` right after adding them restores the
document's dependency-section entry set, provided neither name is a prefix
of any pre-existing line's trimmed text. -/
theorem add_remove_roundtrip (doc : String)
    (ha : ∀ l ∈ rustLines doc.data, List.isPrefixOf "a".data (trimChars l) = false)
    (hb : ∀ l ∈ rustLines doc.data, List.isPrefixOf "b".data (trimChars l) = false) :
    ∀ e, (e ∈ entriesOf (remove_dependencies_from_toml
        (add_dependencies_to_toml doc ["a", "b"]) ["a", "b"]) ↔ e ∈ entriesOf doc) := by
  suffices h : entriesOf (remove_dependencies_from_toml
      (add_dependencies_to_toml doc ["a", "b"]) ["a", "b"]) = entriesOf doc by
    intro e; rw [h]
  have hLnl : ∀ x ∈ rustLines doc.data, ('\n' : Char) ∉ x :=
    no_newline_rustLines doc.data
  have hstart : entriesOf (remove_dependencies_from_toml
      (add_dependencies_to_toml doc ["a", "b"]) ["a", "b"]) =
      entriesOfLines (rustLines (joinNL (removeLinesCore
        (rustLines (joinNL (addLinesCore (rustLines doc.data)
          ["a".data, "b".data]))) ["a".data, "b".data]))) := rfl
  rw [hstart]
  have hkeep : ∀ x ∈ (rustLines doc.data).map stripCR,
      (!(List.any ["a".data, "b".data]
        (fun pkg => pkg.isPrefixOf (trimChars x)))) = true := by
    intro x hx
    obtain ⟨y, hy, rfl⟩ := List.mem_map.mp hx
    rw [trimChars_stripCR]
    simp [ha y hy, hb y hy]
  cases hd : depsIdx (rustLines doc.data) with
  | none =>
    have hM : addLinesCore (rustLines doc.data) ["a".data, "b".data] =
        rustLines doc.data ++ [[], headerLine, depLine "a".data, depLine "b".data] := by
      rw [addLinesCore_no_header_list (rustLines doc.data) _ hd]
      simp
    rw [hM]
    have hnl1 : ∀ x ∈ rustLines doc.data ++
        [[], headerLine, depLine "a".data, depLine "b".data], ('
' : Char) ∉ x := by
      intro x hx
      rcases List.mem_append.mp hx with h | h
      · exact hLnl x h
      · simp only [List.mem_cons, List.not_mem_nil, or_false] at h
        rcases h with rfl | rfl | rfl | rfl <;> decide
    rw [rustLines_joinNL _ (by simp) hnl1]
    have hRemove : removeLinesCore ((rustLines doc.data ++
        [[], headerLine, depLine "a".data, depLine "b".data]).map stripCR)
          ["a".data, "b".data] =
        (rustLines doc.data).map stripCR ++ [[], headerLine] := by
      unfold removeLinesCore
      rw [List.map_append, List.filter_append]
      rw [List.filter_eq_self.mpr hkeep]
      rw [show ([[], headerLine, depLine "a".data, depLine "b".data].map stripCR) =
        [[], headerLine, depLine "a".data, depLine "b".data] from by decide]
      rw [show List.filter (fun line => !(List.any ["a".data, "b".data]
          (fun pkg => pkg.isPrefixOf (trimChars line))))
          [[], headerLine, depLine "a".data, depLine "b".data] =
        [[], headerLine] from by decide]
    rw [hRemove]
    have hnl2 : ∀ x ∈ (rustLines doc.data).map stripCR ++ [[], headerLine],
        ('
' : Char) ∉ x := by
      intro x hx
      rcases List.mem_append.mp hx with h | h
      · exact no_newline_map_stripCR _ hLnl x h
      · simp only [List.mem_cons, List.not_mem_nil, or_false] at h
        rcases h with rfl | rfl <;> decide
    rw [rustLines_joinNL _ (by simp) hnl2, entriesOfLines_map_stripCR]
    have hfinal : entriesOfLines ((rustLines doc.data).map stripCR ++ [[], headerLine]) = [] := by
      unfold entriesOfLines
      have hidx : depsIdx ((rustLines doc.data).map stripCR ++ [[], headerLine]) =
          some ((rustLines doc.data).length + 1) := by
        unfold depsIdx
        rw [List.findIdx?_append]
        have h1 : List.findIdx? (fun l => trimChars l == headerLine)
            ((rustLines doc.data).map stripCR) = none := by
          have h2 := depsIdx_map_stripCR (rustLines doc.data)
          unfold depsIdx at h2
          rw [h2]
          exact hd
        rw [h1, show List.findIdx? (fun l => trimChars l == headerLine)
          [[], headerLine] = some 1 from by decide]
        simp [List.length_map]
        omega
      rw [hidx]
      show existingEntries (sectionRun ((rustLines doc.data).map stripCR ++
        [[], headerLine]) ((rustLines doc.data).length + 1)) = []
      unfold sectionRun
      rw [List.drop_eq_nil_of_le (by simp)]
      rfl
    rw [hfinal]
    show ([] : List (List Char)) = entriesOfLines (rustLines doc.data)
    unfold entriesOfLines
    rw [hd]
  | some di =>
    have hlt : di < (rustLines doc.data).length := depsIdx_some_lt_length _ di hd
    have hii : di + 1 + scanLen ((rustLines doc.data).drop (di + 1)) ≤
        (rustLines doc.data).length := by
      have h1 := scanLen_le_length ((rustLines doc.data).drop (di + 1))
      rw [List.length_drop] at h1
      omega
    have hany : ∀ pkg, (∀ l ∈ rustLines doc.data,
        List.isPrefixOf pkg (trimChars l) = false) →
        (existingEntries (sectionRun (rustLines doc.data) di)).any
          (fun d => pkg.isPrefixOf d) = false := by
      intro pkg hpkg
      rw [List.any_eq_false]
      intro d hd2
      obtain ⟨l, hl, rfl⟩ := mem_existingEntries _ d hd2
      rw [hpkg l (mem_sectionRun _ _ l hl)]
      simp
    have hM : addLinesCore (rustLines doc.data) ["a".data, "b".data] =
        (rustLines doc.data).take (di + 1 + scanLen ((rustLines doc.data).drop (di + 1))) ++
          depLine "a".data :: depLine "b".data ::
          (rustLines doc.data).drop (di + 1 + scanLen ((rustLines doc.data).drop (di + 1))) := by
      simp only [addLinesCore, hd]
      rw [addLoop, if_neg (by rw [hany "a".data ha]; simp)]
      rw [addLoop, if_neg (by rw [hany "b".data hb]; simp)]
      rw [addLoop]
      exact insertAt_insertAt _ (depLine "a".data) (depLine "b".data) _ hii
    rw [hM]
    have hnl1 : ∀ x ∈ (rustLines doc.data).take
        (di + 1 + scanLen ((rustLines doc.data).drop (di + 1))) ++
        depLine "a".data :: depLine "b".data ::
        (rustLines doc.data).drop
          (di + 1 + scanLen ((rustLines doc.data).drop (di + 1))),
        ('
' : Char) ∉ x := by
      intro x hx
      rcases List.mem_append.mp hx with h | h
      · exact hLnl x ((List.take_sublist _ _).mem h)
      · rcases List.mem_cons.mp h with rfl | h2
        · decide
        · rcases List.mem_cons.mp h2 with rfl | h3
          · decide
          · exact hLnl x ((List.drop_sublist _ _).mem h3)
    rw [rustLines_joinNL _ (by simp) hnl1]
    have hRemove : removeLinesCore (((rustLines doc.data).take
        (di + 1 + scanLen ((rustLines doc.data).drop (di + 1))) ++
        depLine "a".data :: depLine "b".data ::
        (rustLines doc.data).drop
          (di + 1 + scanLen ((rustLines doc.data).drop (di + 1)))).map stripCR)
        ["a".data, "b".data] = (rustLines doc.data).map stripCR := by
      unfold removeLinesCore
      rw [List.map_append, List.filter_append, List.map_cons, List.map_cons]
      rw [show stripCR (depLine "a".data) = depLine "a".data from by decide,
        show stripCR (depLine "b".data) = depLine "b".data from by decide]
      rw [List.filter_cons, if_neg (by decide), List.filter_cons, if_neg (by decide)]
      rw [List.filter_eq_self.mpr (fun x hx =>
        hkeep x (((List.take_sublist _ _).map stripCR).mem hx))]
      rw [List.filter_eq_self.mpr (fun x hx =>
        hkeep x (((List.drop_sublist _ _).map stripCR).mem hx))]
      rw [← List.map_append, List.take_append_drop]
    rw [hRemove]
    have hLne : (rustLines doc.data).map stripCR ≠ [] := by
      intro h
      rw [List.map_eq_nil_iff] at h
      rw [h] at hlt
      simp at hlt
    rw [rustLines_joinNL _ hLne (no_newline_map_stripCR _ hLnl),
      entriesOfLines_map_stripCR, entriesOfLines_map_stripCR]
    rfl


/-- Witness for C8 on a concrete document without a dependency section. -/
theorem add_creates_header_section_witness :
    strEndsWith (add_dependencies_to_toml "name = \"t\"\n" ["zlib"])
      "\n[deps]\nzlib = \"*\"\n" = true ∧
    endsWithOneNewline (add_dependencies_to_toml "name = \"t\"\n" ["zlib"]) = true :=
  add_creates_header_section "name = \"t\"\n" (by decide)

/-- Witness for C7 on a concrete document with a dependency section. -/
theorem add_remove_roundtrip_witness :
    ("zlib = \"1\"".data ∈ entriesOf (remove_dependencies_from_toml
      (add_dependencies_to_toml "[deps]\nzlib = \"1\"\n" ["a", "b"]) ["a", "b"]) ↔
      "zlib = \"1\"".data ∈ entriesOf "[deps]\nzlib = \"1\"\n") :=
  add_remove_roundtrip "[deps]\nzlib = \"1\"\n" (by decide) (by decide)
    ("zlib = \"1\"".data)

end Zora
